import Mathlib

/-!
Verification of the strelingo-addon subtitle alignment engine (src/index.js).

The development embeds the core functions of the addon — `parseTimeToMs`,
`mergeSubtitles`, the id-sanitisation step of `formatSrt`, the ad filter of
`parseSrt`, and the decode-with-latin1-fallback step of `fetchSubtitleContent` —
as executable Lean definitions, and proves the specified properties about them.

JavaScript numbers that can be NaN are modelled as `Option Int` (`none` = NaN);
every comparison on them is false when either side is `none`, matching
JavaScript comparison semantics for NaN.
-/

/-- A parsed SRT subtitle record, as produced by the external `srt-parser-2`
library: an id, two `HH:MM:SS,mmm` time strings, and the caption text.
A missing (JS-falsy) time field is modelled by the empty string. -/
structure SubRecord where
  id : String
  startTime : String
  endTime : String
  text : String
deriving Repr, DecidableEq, Inhabited

/-- Numeric value of a list of ASCII digits, most significant first. -/
def digitsToNat (ds : List Char) : Nat :=
  ds.foldl (fun a c => a * 10 + (c.toNat - 48)) 0

/-- Parse the leading run of ASCII digits of a character list; `none` when the
list does not start with a digit (JavaScript `parseInt` yields NaN there). -/
def parseDigits (cs : List Char) : Option Int :=
  let ds := cs.takeWhile Char.isDigit
  if ds.isEmpty then none else some (digitsToNat ds : Nat)

/-- Model of JavaScript `parseInt(s, 10)`: skip leading whitespace, accept an
optional sign, then read the leading digit run; NaN (`none`) when no digit
follows. -/
def jsParseInt (cs : List Char) : Option Int :=
  match cs.dropWhile fun c => c == ' ' || c == '\t' || c == '\n' || c == '\r' with
  | '-' :: rest => (parseDigits rest).map fun n => -n
  | '+' :: rest => parseDigits rest
  | ds => parseDigits ds

/-- Model of JavaScript `s.split(sep)` for a one-character separator:
accumulates the current piece and cuts at every separator occurrence. -/
def jsSplitAux (sep : Char) : List Char → List Char → List (List Char)
  | [], acc => [acc.reverse]
  | c :: rest, acc =>
    if c == sep then acc.reverse :: jsSplitAux sep rest []
    else jsSplitAux sep rest (c :: acc)

/-- JavaScript `s.split(sep)` on character lists. -/
def jsSplit (sep : Char) (cs : List Char) : List (List Char) :=
  jsSplitAux sep cs []

/-- Whether a character list starts with two digits, a colon, two digits, a
colon, two digits, a comma, and three digits — one position of the unanchored
regular expression test in `parseTimeToMs` (src/index.js line 1691). -/
def timePatternAt : List Char → Bool
  | a :: b :: ':' :: c :: d :: ':' :: e :: f :: ',' :: g :: h :: i :: _ =>
    a.isDigit && b.isDigit && c.isDigit && d.isDigit && e.isDigit && f.isDigit &&
    g.isDigit && h.isDigit && i.isDigit
  | _ => false

/-- JavaScript regular-expression `test` is a substring search: the pattern may
match at any position of the string. -/
def containsTimePattern : List Char → Bool
  | [] => false
  | c :: rest => timePatternAt (c :: rest) || containsTimePattern rest

/-- Model of the spec's words: a time string of exactly the fixed shape
`HH:MM:SS,mmm` (two digits, colon, two digits, colon, two digits, comma, three
digits, nothing else). Used to compare the spec's "matches the fixed pattern"
wording with the containment test the code actually performs. -/
def matchesFixedPattern (s : String) : Bool :=
  match s.data with
  | [a, b, ':', c, d, ':', e, f, ',', g, h, i] =>
    a.isDigit && b.isDigit && c.isDigit && d.isDigit && e.isDigit && f.isDigit &&
    g.isDigit && h.isDigit && i.isDigit
  | _ => false

/-- Embeds `parseTimeToMs` (src/index.js lines 1689-1702). An empty (falsy) or
pattern-free string short-circuits to 0; otherwise the string is split on `:`
and `,` and the pieces go through `parseInt`. The result is `none` exactly when
the JavaScript function returns NaN; `parts.getD k "undefined"` mirrors the
JavaScript coercion of an out-of-range index (`undefined`) to the string
`"undefined"`, which `parseInt` turns into NaN. -/
def parseTimeToMs (timeString : String) : Option Int :=
  if timeString = "" ∨ containsTimePattern timeString.data = false then some 0
  else
    let parts := jsSplit ':' timeString.data
    let secondsParts := jsSplit ',' (parts.getD 2 "undefined".data)
    let hours := jsParseInt (parts.getD 0 "undefined".data)
    let minutes := jsParseInt (parts.getD 1 "undefined".data)
    let seconds := jsParseInt (secondsParts.getD 0 "undefined".data)
    let milliseconds := jsParseInt (secondsParts.getD 1 "undefined".data)
    match hours, minutes, seconds, milliseconds with
    | some h, some m, some s, some ms => some ((h * 3600 + m * 60 + s) * 1000 + ms)
    | _, _, _, _ => none

/-- JavaScript `<` on numbers that may be NaN: false when either side is NaN. -/
def jlt : Option Int → Option Int → Bool
  | some a, some b => a < b
  | _, _ => false

/-- JavaScript `<=` on numbers that may be NaN: false when either side is NaN. -/
def jle : Option Int → Option Int → Bool
  | some a, some b => a ≤ b
  | _, _ => false

/-- JavaScript `Math.abs(a - b)` with NaN propagation. -/
def jabsSub : Option Int → Option Int → Option Int
  | some a, some b => some |a - b|
  | _, _ => none

/-- JavaScript `a + k` for a possibly-NaN `a` and a literal `k`. -/
def jaddK (a : Option Int) (k : Int) : Option Int :=
  a.map fun x => x + k

/-- JavaScript `a - k` for a possibly-NaN `a` and a literal `k`. -/
def jsubK (a : Option Int) (k : Int) : Option Int :=
  a.map fun x => x - k

/-- JavaScript `d < s` where `d` may be NaN and `s` is the running
`smallestTimeDiff`, which starts as `Infinity` (modelled by `none`). -/
def ltInf : Option Int → Option Int → Bool
  | none, _ => false
  | some _, none => true
  | some a, some b => a < b

/-- The `startsOverlap` classification of src/index.js line 1738: the
translation start falls inside the main record's `[start, end)` interval. -/
def startsOverlap (mS mE tS tE : Option Int) : Bool :=
  jle mS tS && jlt tS mE

/-- The `endsOverlap` classification of src/index.js line 1739: the translation
end falls inside the main record's `(start, end]` interval. -/
def endsOverlap (mS mE tS tE : Option Int) : Bool :=
  jlt mS tE && jle tE mE

/-- The `isWithin` classification of src/index.js line 1740: the translation
interval lies (non-strictly) inside the main interval. -/
def isWithin (mS mE tS tE : Option Int) : Bool :=
  jle mS tS && jle tE mE

/-- The `contains` classification of src/index.js line 1741: the translation
interval strictly encloses the main interval on both sides. -/
def containsIv (mS mE tS tE : Option Int) : Bool :=
  jlt tS mS && jlt mE tE

/-- The five-way match condition of src/index.js line 1745: any overlap
classification, or start times closer than the merge threshold. -/
def isPotentialMatch (mS mE tS tE : Option Int) (θ : Int) : Bool :=
  startsOverlap mS mE tS tE || endsOverlap mS mE tS tE || isWithin mS mE tS tE ||
  containsIv mS mE tS tE || jlt (jabsSub mS tS) (some θ)

/-- Global replacement of `\r\n`, `\n`, and `\r` by a single space — the
`replace(/\r?\n|\r/g, ' ')` flattening of src/index.js lines 1774-1775. -/
def flattenChars : List Char → List Char
  | [] => []
  | '\r' :: '\n' :: rest => ' ' :: flattenChars rest
  | '\r' :: rest => ' ' :: flattenChars rest
  | '\n' :: rest => ' ' :: flattenChars rest
  | c :: rest => c :: flattenChars rest

/-- String version of `flattenChars`. -/
def flattenStr (s : String) : String :=
  String.mk (flattenChars s.data)

/-- The merged caption text for a matched pair (src/index.js line 1780): the
flattened main text, a newline, and the flattened translation text wrapped in
the yellow-italic markup. -/
def mergeText (mainText transText : String) : String :=
  flattenStr mainText ++ "\n<font color=\"yellow\"><i>" ++ flattenStr transText ++ "</i></font>"

/-- Embeds the inner loop of `mergeSubtitles` (src/index.js lines 1725-1768):
the scan over translation records for one main record. Arguments after the
list: the index `i` of the list head within the full translation array,
`foundMatch`, `bestMatchIndex` (`none` = -1), `smallestTimeDiff` (`none` =
Infinity; never NaN, since a NaN difference never wins a comparison), and the
monotonic cursor `transIndex`. Returns the final `bestMatchIndex` and the final
`transIndex`. -/
def scanTrans (mS mE : Option Int) (θ : Int) :
    List SubRecord → Nat → Bool → Option Nat → Option Int → Nat → Option Nat × Nat
  | [], _, _, best, _, tIdx => (best, tIdx)
  | t :: rest, i, found, best, small, tIdx =>
    if t.startTime = "" ∨ t.endTime = "" then
      scanTrans mS mE θ rest (i + 1) found best small tIdx
    else
      let tS := parseTimeToMs t.startTime
      let tE := parseTimeToMs t.endTime
      let timeDiff := jabsSub mS tS
      if isPotentialMatch mS mE tS tE θ = true then
        let best' := if ltInf timeDiff small = true then some i else best
        let small' := if ltInf timeDiff small = true then timeDiff else small
        let tIdx' := if jlt tE (jsubK mS (θ * 2)) = true ∧ i = tIdx then i + 1 else tIdx
        scanTrans mS mE θ rest (i + 1) true best' small' tIdx'
      else if found = true ∧ jlt (jaddK mE θ) tS = true then (best, tIdx)
      else if found = false ∧ jlt (jaddK mE θ) tS = true then (best, tIdx)
      else
        let tIdx' := if jlt tE (jsubK mS (θ * 2)) = true ∧ i = tIdx then i + 1 else tIdx
        scanTrans mS mE θ rest (i + 1) found best small tIdx'

/-- Embeds the outer loop of `mergeSubtitles` (src/index.js lines 1710-1789).
Each produced pair is the merged record together with the `bestMatchIndex`
chosen for it (exposed so that theorems can speak about which translation
record was selected); the merged subtitle list is the first projection. -/
def mergeRun (transSubs : List SubRecord) (θ : Int) :
    List SubRecord → Nat → List (SubRecord × Option Nat)
  | [], _ => []
  | mainSub :: rest, transIndex =>
    if mainSub.startTime = "" ∨ mainSub.endTime = "" then
      mergeRun transSubs θ rest transIndex
    else
      let mS := parseTimeToMs mainSub.startTime
      let mE := parseTimeToMs mainSub.endTime
      let r := scanTrans mS mE θ (transSubs.drop transIndex) transIndex false none none transIndex
      match r.1 with
      | some j =>
        ({ mainSub with text := mergeText mainSub.text (transSubs.getD j default).text }, some j)
          :: mergeRun transSubs θ rest r.2
      | none =>
        ({ mainSub with text := flattenStr mainSub.text }, none) :: mergeRun transSubs θ rest r.2

/-- Embeds `mergeSubtitles` (src/index.js lines 1705-1792): the merged subtitle
list. The JavaScript default for the threshold is 500. -/
def mergeSubtitles (mainSubs transSubs : List SubRecord) (θ : Int) : List SubRecord :=
  (mergeRun transSubs θ mainSubs 0).map Prod.fst

/-- The translation index chosen for each processed main record during
`mergeSubtitles`; same run as `mergeSubtitles`, second projection. -/
def mergeChoices (mainSubs transSubs : List SubRecord) (θ : Int) : List (Option Nat) :=
  (mergeRun transSubs θ mainSubs 0).map Prod.snd

/-- Modelled from the spec's matching rule (spec §4.2): examine every
translation record of the whole array, with no cursor and no early
termination, and keep the potential match with the smallest absolute
start-time difference, the first encountered winning ties. The optimised
`scanTrans` is verified against this. -/
def specScan (mS mE : Option Int) (θ : Int) :
    List SubRecord → Nat → Option Nat → Option Int → Option Nat
  | [], _, best, _ => best
  | t :: rest, i, best, small =>
    if t.startTime = "" ∨ t.endTime = "" then
      specScan mS mE θ rest (i + 1) best small
    else
      let tS := parseTimeToMs t.startTime
      let tE := parseTimeToMs t.endTime
      let timeDiff := jabsSub mS tS
      if isPotentialMatch mS mE tS tE θ = true then
        if ltInf timeDiff small = true then specScan mS mE θ rest (i + 1) (some i) timeDiff
        else specScan mS mE θ rest (i + 1) best small
      else specScan mS mE θ rest (i + 1) best small

/-- The specification-level best match for one main record: scan the whole
translation array from the start. -/
def specBestMatch (m : SubRecord) (transSubs : List SubRecord) (θ : Int) : Option Nat :=
  specScan (parseTimeToMs m.startTime) (parseTimeToMs m.endTime) θ transSubs 0 none none

/-- The specification-level merged record for one main record. -/
def specMerge (m : SubRecord) (transSubs : List SubRecord) (θ : Int) : SubRecord :=
  match specBestMatch m transSubs θ with
  | some j => { m with text := mergeText m.text (transSubs.getD j default).text }
  | none => { m with text := flattenStr m.text }

/-- A record is well formed when both time strings are present (non-empty) and
parse to actual numbers (not NaN). -/
def validSub (r : SubRecord) : Prop :=
  r.startTime ≠ "" ∧ r.endTime ≠ "" ∧
  (parseTimeToMs r.startTime).isSome = true ∧ (parseTimeToMs r.endTime).isSome = true

instance (r : SubRecord) : Decidable (validSub r) := by
  unfold validSub; infer_instance

/-- The parsed start time of a record, with NaN defaulting to 0. -/
def startMs (r : SubRecord) : Int :=
  (parseTimeToMs r.startTime).getD 0

/-- The parsed end time of a record, with NaN defaulting to 0. -/
def endMs (r : SubRecord) : Int :=
  (parseTimeToMs r.endTime).getD 0

/-- Embeds the id-sanitisation step of `formatSrt` (src/index.js lines
1850-1855): every record receives the string form of its 1-based output
position as id; the external serializer `parser.toSrt` is not part of src and
is not modelled. -/
def formatSrt (subtitleArray : List SubRecord) : List SubRecord :=
  subtitleArray.mapIdx fun index sub => { sub with id := toString (index + 1) }

/-- Whether `pat` is a prefix of `l`. -/
def listPrefixAt (pat l : List Char) : Bool :=
  match pat, l with
  | [], _ => true
  | _ :: _, [] => false
  | a :: as, b :: bs => a == b && listPrefixAt as bs

/-- Whether `pat` occurs as a contiguous substring of `l`. -/
def listContainsSub (pat : List Char) : List Char → Bool
  | [] => pat.isEmpty
  | c :: rest => listPrefixAt pat (c :: rest) || listContainsSub pat rest

/-- JavaScript `haystack.includes(pat)`. -/
def strIncludes (haystack pat : String) : Bool :=
  listContainsSub pat.data haystack.data

/-- The ad keywords filtered out by `parseSrt` (src/index.js line 1889). -/
def adKeywords : List String :=
  ["OpenSubtitles.org", "OpenSubtitles.com", "osdb.link"]

/-- Model of JavaScript `s.trim()`: strip whitespace from both ends. -/
def jsTrim (cs : List Char) : List Char :=
  ((cs.dropWhile Char.isWhitespace).reverse.dropWhile Char.isWhitespace).reverse

/-- Embeds the post-processing of `parseSrt` (src/index.js lines 1881-1916):
the external `parser.fromSrt` result is the `parsed` parameter and `srtText` is
the already-normalised input text. Records containing an ad keyword are
filtered out; an empty result from non-empty input, or a first record missing
its start time or text, is a parse failure (`none`). -/
def parseSrt (srtText : String) (parsed : List SubRecord) : Option (List SubRecord) :=
  let subtitles := parsed.filter fun sub => !(adKeywords.any fun keyword => strIncludes sub.text keyword)
  if subtitles.length = 0 ∧ 0 < (jsTrim srtText.data).length then none
  else if 0 < subtitles.length ∧ ((subtitles.headD default).startTime = "" ∨ (subtitles.headD default).text = "") then none
  else some subtitles

/-- Embeds the decode step of `fetchSubtitleContent` (src/index.js lines
1610-1633). The external `iconv.decode` on the fixed content buffer is the
parameter `decode`, mapping an encoding name to the decoded text or `none`
when the decode throws. Returns the resulting text (`none` = the function
returns null) together with the list of encodings attempted, in order. After a
successful `utf8` decode a leading U+FEFF byte-order mark is stripped (lines
1618-1621); the latin1 fallback path does not strip. -/
def decodeStep (decode : String → Option String) (detectedEncoding : String) :
    Option String × List String :=
  match decode detectedEncoding with
  | some subtitleText =>
    if detectedEncoding = "utf8" ∧ subtitleText.data.head? = some (Char.ofNat 0xFEFF) then
      (some (String.mk (subtitleText.data.drop 1)), [detectedEncoding])
    else
      (some subtitleText, [detectedEncoding])
  | none =>
    match decode "latin1" with
    | some subtitleText => (some subtitleText, [detectedEncoding, "latin1"])
    | none => (none, [detectedEncoding, "latin1"])

/-- Index `j` of the translation array holds a (valid) record satisfying the
five-way match condition against the main interval `mS`–`mE`. -/
def MatchesIdx (T : List SubRecord) (mS mE : Option Int) (θ : Int) (j : Nat) : Prop :=
  ∃ u, T[j]? = some u ∧ ¬(u.startTime = "" ∨ u.endTime = "") ∧
    isPotentialMatch mS mE (parseTimeToMs u.startTime) (parseTimeToMs u.endTime) θ = true

/-- Absolute start-time difference between the main start `ms` and the
translation record at index `j`. -/
def diffAt (T : List SubRecord) (ms : Int) (j : Nat) : Int :=
  |ms - startMs (T.getD j default)|

/-! ### Helper lemmas -/

lemma jlt_some_some {a b : Int} : jlt (some a) (some b) = true ↔ a < b := by
  simp [jlt]

lemma jle_some_some {a b : Int} : jle (some a) (some b) = true ↔ a ≤ b := by
  simp [jle]

lemma jaddK_some {a k : Int} : jaddK (some a) k = some (a + k) := rfl

lemma jsubK_some {a k : Int} : jsubK (some a) k = some (a - k) := rfl

lemma jabsSub_some {a b : Int} : jabsSub (some a) (some b) = some |a - b| := rfl

lemma drop_cons_eq {α : Type} {T : List α} {i : Nat} {t : α} {rest : List α}
    (h : T.drop i = t :: rest) : T[i]? = some t ∧ rest = T.drop (i + 1) ∧ i < T.length := by
  have hlen : i < T.length := by
    by_contra hc
    rw [List.drop_eq_nil_of_le (Nat.le_of_not_lt hc)] at h
    cases h
  have h2 := List.drop_eq_getElem_cons (l := T) (n := i) hlen
  rw [h] at h2
  injection h2 with h3 h4
  exact ⟨by rw [List.getElem?_eq_some_iff]; exact ⟨hlen, h3.symm⟩, h4, hlen⟩

lemma validSub_parse_start {r : SubRecord} (h : validSub r) :
    parseTimeToMs r.startTime = some (startMs r) := by
  obtain ⟨-, -, h3, -⟩ := h
  unfold startMs
  cases hp : parseTimeToMs r.startTime with
  | none => rw [hp] at h3; simp at h3
  | some v => simp [hp]

lemma validSub_parse_end {r : SubRecord} (h : validSub r) :
    parseTimeToMs r.endTime = some (endMs r) := by
  obtain ⟨-, -, -, h4⟩ := h
  unfold endMs
  cases hp : parseTimeToMs r.endTime with
  | none => rw [hp] at h4; simp at h4
  | some v => simp [hp]

/-! ### C5 -/

/-- C5 counterexample: the time string `"100:00:00,000"` does not match the
fixed `HH:MM:SS,mmm` pattern, yet `parseTimeToMs` does not return 0 for it (the
code's regular-expression test is an unanchored substring search, so the string
passes validation and parses to 360000000 ms). -/
theorem c5_counterexample :
    matchesFixedPattern "100:00:00,000" = false ∧
    parseTimeToMs "100:00:00,000" = some 360000000 ∧
    parseTimeToMs "100:00:00,000" ≠ some 0 := by
  refine ⟨by decide, by decide, by decide⟩

/-- C5 amended: for every time string that does not contain a substring
matching `\d\d:\d\d:\d\d,\d\d\d`, `parseTimeToMs` returns 0 (without
throwing), and a record carrying such a string (non-empty) is still processed
by `mergeSubtitles` — it remains a participant in matching with parsed times
defaulting to 0. -/
theorem c5_unparsable_time_is_zero (s : String) (h : containsTimePattern s.data = false) :
    parseTimeToMs s = some 0 ∧
    ∀ (r : SubRecord) (transSubs : List SubRecord) (θ : Int),
      r.startTime = s → s ≠ "" → r.endTime ≠ "" →
      (mergeSubtitles [r] transSubs θ).length = 1 := by
  constructor
  · simp [parseTimeToMs, h]
  · intro r transSubs θ hrs hs hre
    unfold mergeSubtitles mergeRun
    rw [if_neg (by rw [hrs]; tauto)]
    simp only [List.drop_zero]
    cases hscan : (scanTrans (parseTimeToMs r.startTime) (parseTimeToMs r.endTime) θ
        transSubs 0 false none none 0).1 <;>
      simp [hscan, mergeRun]

/-- C5 witness: the spec's example `"1:2:3,4"` parses to 0 and a record
carrying it is still merged. -/
theorem c5_witness :
    parseTimeToMs "1:2:3,4" = some 0 ∧
    (mergeSubtitles [⟨"1", "1:2:3,4", "1:2:3,4", "Hi"⟩] [] 500).length = 1 := by
  have h := c5_unparsable_time_is_zero "1:2:3,4" (by decide)
  exact ⟨h.1, h.2 ⟨"1", "1:2:3,4", "1:2:3,4", "Hi"⟩ [] 500 rfl (by decide) (by decide)⟩

/-! ### C7 -/

/-- C7: if decoding with the resolved codec fails, decoding is retried exactly
once with latin1 — the attempt list is exactly `[detectedEncoding, "latin1"]` —
and the overall result is whatever the latin1 attempt yields, so a second
failure makes the resolution return `none` (null) with no further attempts. -/
theorem c7_decode_latin1_fallback (decode : String → Option String) (enc : String)
    (h : decode enc = none) :
    (decodeStep decode enc).1 = decode "latin1" ∧
    (decodeStep decode enc).2 = [enc, "latin1"] := by
  unfold decodeStep
  rw [h]
  cases h2 : decode "latin1" <;> simp [h2]

/-- C7 witness: a decoder that always fails produces `none` after exactly the
two attempts `["utf8", "latin1"]`. -/
theorem c7_witness :
    (decodeStep (fun _ => none) "utf8").1 = none ∧
    (decodeStep (fun _ => none) "utf8").2 = ["utf8", "latin1"] :=
  c7_decode_latin1_fallback (fun _ => none) "utf8" rfl

/-! ### C9 -/

/-- C9: the array `formatSrt` hands to the serializer carries the sequential
ids "1", "2", "3", … in output order, independent of the records' original
ids, with every other field unchanged. -/
theorem c9_formatSrt_sequential_ids (subtitleArray : List SubRecord) (k : Nat) :
    (formatSrt subtitleArray)[k]? =
      (subtitleArray[k]?).map fun sub => { sub with id := toString (k + 1) } := by
  simp [formatSrt]

/-! ### C10 -/

/-- C10: every sequence successfully returned by `parseSrt` contains no record
whose text includes any of the ad keywords, and it can only be shorter than
(or as long as) the externally parsed entry list. -/
theorem c10_parseSrt_no_ads (srtText : String) (parsed subs : List SubRecord)
    (h : parseSrt srtText parsed = some subs) :
    (∀ r ∈ subs, ∀ keyword ∈ adKeywords, strIncludes r.text keyword = false) ∧
    subs.length ≤ parsed.length := by
  simp only [parseSrt] at h
  split_ifs at h
  injection h with h
  subst h
  refine ⟨?_, List.length_filter_le _ _⟩
  intro r hr keyword hk
  have := (List.mem_filter.mp hr).2
  simp only [Bool.not_eq_true'] at this
  have := List.any_eq_false.mp this keyword hk
  simpa using this

/-- C10 witness: a record carrying an OpenSubtitles ad is filtered out and the
surviving record is ad-free. -/
theorem c10_witness :
    (∀ r ∈ [(⟨"2", "00:00:01,000", "00:00:02,000", "clean"⟩ : SubRecord)],
      ∀ keyword ∈ adKeywords, strIncludes r.text keyword = false) ∧
    ([(⟨"2", "00:00:01,000", "00:00:02,000", "clean"⟩ : SubRecord)]).length ≤
      ([⟨"1", "00:00:00,000", "00:00:01,000", "Ad by OpenSubtitles.org"⟩,
        ⟨"2", "00:00:01,000", "00:00:02,000", "clean"⟩] : List SubRecord).length :=
  c10_parseSrt_no_ads "x"
    [⟨"1", "00:00:00,000", "00:00:01,000", "Ad by OpenSubtitles.org"⟩,
     ⟨"2", "00:00:01,000", "00:00:02,000", "clean"⟩]
    [⟨"2", "00:00:01,000", "00:00:02,000", "clean"⟩] (by decide)

/-! ### C4 -/

/-- C4 counterexample: for a translation interval exactly equal to the primary
interval, `isWithin` holds but `contains` does not (both its inequalities are
strict), so the two classifications do not hold simultaneously as the claim
states. -/
theorem c4_counterexample :
    isWithin (some 0) (some 2000) (some 0) (some 2000) = true ∧
    containsIv (some 0) (some 2000) (some 0) (some 2000) = false := by
  decide

/-- C4 amended: a translation record whose interval exactly equals the primary
record's interval qualifies as `isWithin` but not as `contains`; it is still
selected exactly once for that primary record, producing a single merged
record. -/
theorem c4_equal_interval (m t : SubRecord) (θ : Int) (s e : Int)
    (hm1 : m.startTime ≠ "") (hm2 : m.endTime ≠ "")
    (ht1 : t.startTime ≠ "") (ht2 : t.endTime ≠ "")
    (hps : parseTimeToMs m.startTime = some s) (hpe : parseTimeToMs m.endTime = some e)
    (hts : parseTimeToMs t.startTime = some s) (hte : parseTimeToMs t.endTime = some e) :
    isWithin (some s) (some e) (some s) (some e) = true ∧
    containsIv (some s) (some e) (some s) (some e) = false ∧
    mergeSubtitles [m] [t] θ = [{ m with text := mergeText m.text t.text }] := by
  refine ⟨by simp [isWithin, jle], by simp [containsIv, jlt], ?_⟩
  have hmatch : isPotentialMatch (some s) (some e) (some s) (some e) θ = true := by
    simp [isPotentialMatch, isWithin, jle]
  unfold mergeSubtitles mergeRun
  rw [if_neg (by tauto)]
  simp only [hps, hpe, List.drop]
  unfold scanTrans
  rw [if_neg (by tauto)]
  simp only [hts, hte, hmatch, if_pos, jabsSub]
  simp [ltInf, scanTrans, mergeRun, mergeText]

/-- C4 witness: concrete equal intervals 1000–3000 ms. -/
theorem c4_witness :
    isWithin (some 1000) (some 3000) (some 1000) (some 3000) = true ∧
    containsIv (some 1000) (some 3000) (some 1000) (some 3000) = false ∧
    mergeSubtitles [⟨"1", "00:00:01,000", "00:00:03,000", "Main"⟩]
        [⟨"1", "00:00:01,000", "00:00:03,000", "Trans"⟩] 500 =
      [{ (⟨"1", "00:00:01,000", "00:00:03,000", "Main"⟩ : SubRecord) with
          text := mergeText "Main" "Trans" }] :=
  c4_equal_interval ⟨"1", "00:00:01,000", "00:00:03,000", "Main"⟩
    ⟨"1", "00:00:01,000", "00:00:03,000", "Trans"⟩ 500 1000 3000
    (by decide) (by decide) (by decide) (by decide)
    (by decide) (by decide) (by decide) (by decide)

/-! ### C3 counterexample, C8 counterexample -/

/-- C3 counterexample: with two primary records that both overlap the single
translation record, `mergeSubtitles` selects translation record 0 as the best
match for both primary records — the translation record is matched twice,
refuting the at-most-once claim. -/
theorem c3_counterexample :
    mergeChoices
      [⟨"1", "00:00:00,000", "00:00:02,000", "A"⟩, ⟨"2", "00:00:00,500", "00:00:02,000", "B"⟩]
      [⟨"1", "00:00:00,100", "00:00:01,900", "T"⟩] 500 = [some 0, some 0] := by
  decide

/-- C8 counterexample: during the scan for a single primary record
(start 10000 ms, end 11000 ms, threshold 500), over two strictly ordered,
non-overlapping translation records that both end more than 1000 ms before the
primary start, the cursor advances from 0 to 2 — two steps for one primary
record, refuting the at-most-one-step claim. -/
theorem c8_counterexample :
    (scanTrans (parseTimeToMs "00:00:10,000") (parseTimeToMs "00:00:11,000") 500
      [⟨"1", "00:00:00,000", "00:00:00,100", "t0"⟩, ⟨"2", "00:00:00,200", "00:00:00,300", "t1"⟩]
      0 false none none 0).2 = 2 ∧
    startMs ⟨"1", "00:00:00,000", "00:00:00,100", "t0"⟩ <
      startMs ⟨"2", "00:00:00,200", "00:00:00,300", "t1"⟩ ∧
    endMs ⟨"1", "00:00:00,000", "00:00:00,100", "t0"⟩ <
      startMs ⟨"2", "00:00:00,200", "00:00:00,300", "t1"⟩ := by
  decide

/-! ### C1 -/

lemma mergeRun_length (transSubs : List SubRecord) (θ : Int) :
    ∀ (mains : List SubRecord) (c : Nat),
      (∀ m ∈ mains, m.startTime ≠ "" ∧ m.endTime ≠ "") →
      (mergeRun transSubs θ mains c).length = mains.length := by
  intro mains
  induction mains with
  | nil => intro c h; rfl
  | cons m rest ih =>
    intro c h
    have hm := h m (List.mem_cons_self m rest)
    have hrest : ∀ x ∈ rest, x.startTime ≠ "" ∧ x.endTime ≠ "" :=
      fun x hx => h x (List.mem_cons_of_mem m hx)
    unfold mergeRun
    rw [if_neg (by tauto)]
    dsimp only
    cases hscan : (scanTrans (parseTimeToMs m.startTime) (parseTimeToMs m.endTime) θ
        (transSubs.drop c) c false none none c).1 <;>
      simp [hscan, ih _ hrest]

/-- C1: for every pair of caption sequences (whose records carry their time
fields, per the data model) and every threshold, the merged list has exactly
one record per main record — the translation list's length (0, fewer, more, or
equal) is irrelevant. -/
theorem c1_merge_preserves_length (mainSubs transSubs : List SubRecord) (θ : Int)
    (h : ∀ m ∈ mainSubs, m.startTime ≠ "" ∧ m.endTime ≠ "") :
    (mergeSubtitles mainSubs transSubs θ).length = mainSubs.length := by
  unfold mergeSubtitles
  rw [List.length_map]
  exact mergeRun_length transSubs θ mainSubs 0 h

/-- C1 witness: two main records against one translation record and against an
empty translation list. -/
theorem c1_witness :
    (mergeSubtitles
      [⟨"1", "00:00:00,000", "00:00:02,000", "A"⟩, ⟨"2", "00:00:03,000", "00:00:04,000", "B"⟩]
      [⟨"1", "00:00:00,100", "00:00:01,900", "T"⟩] 500).length = 2 ∧
    (mergeSubtitles
      [⟨"1", "00:00:00,000", "00:00:02,000", "A"⟩, ⟨"2", "00:00:03,000", "00:00:04,000", "B"⟩]
      ([] : List SubRecord) 500).length = 2 := by
  constructor
  · rw [c1_merge_preserves_length _ _ _ (by decide)]; rfl
  · rw [c1_merge_preserves_length _ _ _ (by decide)]; rfl

/-! ### C3 (amended direction) -/

lemma scanTrans_fst_mem (mS mE : Option Int) (θ : Int) (T : List SubRecord) :
    ∀ (l : List SubRecord) (i : Nat) (found : Bool) (best : Option Nat) (small : Option Int)
      (tIdx : Nat),
      l = T.drop i →
      (∀ j, best = some j → ∃ u, T[j]? = some u) →
      ∀ j, (scanTrans mS mE θ l i found best small tIdx).1 = some j → ∃ u, T[j]? = some u := by
  intro l
  induction l with
  | nil =>
    intro i found best small tIdx hdrop hbest j hj
    exact hbest j (by simpa [scanTrans] using hj)
  | cons t rest ih =>
    intro i found best small tIdx hdrop hbest j hj
    obtain ⟨hTi, hrest, hilen⟩ := drop_cons_eq hdrop.symm
    unfold scanTrans at hj
    by_cases hv : t.startTime = "" ∨ t.endTime = ""
    · rw [if_pos hv] at hj
      exact ih (i + 1) found best small tIdx hrest hbest j hj
    · rw [if_neg hv] at hj
      dsimp only at hj
      by_cases hmatch : isPotentialMatch mS mE (parseTimeToMs t.startTime)
          (parseTimeToMs t.endTime) θ = true
      · rw [if_pos hmatch] at hj
        refine ih (i + 1) true _ _ _ hrest ?_ j hj
        intro j' hj'
        by_cases hlt : ltInf (jabsSub mS (parseTimeToMs t.startTime)) small = true
        · rw [if_pos hlt] at hj'
          injection hj' with hj'
          exact ⟨t, by rw [← hj']; exact hTi⟩
        · rw [if_neg hlt] at hj'
          exact hbest j' hj'
      · rw [if_neg hmatch] at hj
        by_cases hbrk1 : found = true ∧ jlt (jaddK mE θ) (parseTimeToMs t.startTime) = true
        · rw [if_pos hbrk1] at hj
          exact hbest j hj
        · rw [if_neg hbrk1] at hj
          by_cases hbrk2 : found = false ∧ jlt (jaddK mE θ) (parseTimeToMs t.startTime) = true
          · rw [if_pos hbrk2] at hj
            exact hbest j hj
          · rw [if_neg hbrk2] at hj
            exact ih (i + 1) found best small _ hrest hbest j hj

lemma mergeRun_mem_shape (transSubs : List SubRecord) (θ : Int) :
    ∀ (mains : List SubRecord) (c : Nat) (p : SubRecord × Option Nat),
      p ∈ mergeRun transSubs θ mains c →
      ∃ m ∈ mains,
        p.1 = { m with text := flattenStr m.text } ∨
        ∃ u ∈ transSubs, p.1 = { m with text := mergeText m.text u.text } := by
  intro mains
  induction mains with
  | nil => intro c p hp; simp [mergeRun] at hp
  | cons m rest ih =>
    intro c p hp
    unfold mergeRun at hp
    by_cases hv : m.startTime = "" ∨ m.endTime = ""
    · rw [if_pos hv] at hp
      obtain ⟨m', hm', hshape⟩ := ih _ _ hp
      exact ⟨m', List.mem_cons_of_mem _ hm', hshape⟩
    · rw [if_neg hv] at hp
      dsimp only at hp
      cases hscan : (scanTrans (parseTimeToMs m.startTime) (parseTimeToMs m.endTime) θ
          (transSubs.drop c) c false none none c).1 with
      | none =>
        rw [hscan] at hp
        rcases List.mem_cons.mp hp with heq | hmem
        · exact ⟨m, List.mem_cons_self m rest, Or.inl (by rw [heq])⟩
        · obtain ⟨m', hm', hshape⟩ := ih _ _ hmem
          exact ⟨m', List.mem_cons_of_mem _ hm', hshape⟩
      | some j =>
        rw [hscan] at hp
        rcases List.mem_cons.mp hp with heq | hmem
        · obtain ⟨u, hu⟩ := scanTrans_fst_mem (parseTimeToMs m.startTime)
            (parseTimeToMs m.endTime) θ transSubs (transSubs.drop c) c false none none c rfl
            (by intro j' hj'; cases hj') j hscan
          refine ⟨m, List.mem_cons_self m rest, Or.inr ⟨u, List.getElem?_mem hu, ?_⟩⟩
          rw [heq]
          simp [List.getD_eq_getElem?_getD, hu]
        · obtain ⟨m', hm', hshape⟩ := ih _ _ hmem
          exact ⟨m', List.mem_cons_of_mem _ hm', hshape⟩

/-- C3 amended: each merged record is built from its main record and at most
one translation record (either passed through flattened with no translation, or
composed with exactly one translation record of the translation list); a
translation record, however, may be selected by several main records. -/
theorem c3_one_translation_per_record (mainSubs transSubs : List SubRecord) (θ : Int) :
    ∀ r ∈ mergeSubtitles mainSubs transSubs θ,
      ∃ m ∈ mainSubs,
        r = { m with text := flattenStr m.text } ∨
        ∃ u ∈ transSubs, r = { m with text := mergeText m.text u.text } := by
  intro r hr
  unfold mergeSubtitles at hr
  obtain ⟨p, hp, hpr⟩ := List.mem_map.mp hr
  obtain ⟨m, hm, hshape⟩ := mergeRun_mem_shape transSubs θ mainSubs 0 p hp
  exact ⟨m, hm, by rw [← hpr]; exact hshape⟩

/-- C3 amended witness: the first merged record of the double-match example is
composed from main record "A" and exactly one translation record. -/
theorem c3_witness :
    ∃ m ∈ [(⟨"1", "00:00:00,000", "00:00:02,000", "A"⟩ : SubRecord),
           ⟨"2", "00:00:00,500", "00:00:02,000", "B"⟩],
      (⟨"1", "00:00:00,000", "00:00:02,000", "A\n<font color=\"yellow\"><i>T</i></font>"⟩ : SubRecord) =
        { m with text := flattenStr m.text } ∨
      ∃ u ∈ [(⟨"1", "00:00:00,100", "00:00:01,900", "T"⟩ : SubRecord)],
        (⟨"1", "00:00:00,000", "00:00:02,000", "A\n<font color=\"yellow\"><i>T</i></font>"⟩ : SubRecord) =
          { m with text := mergeText m.text u.text } :=
  c3_one_translation_per_record
    [⟨"1", "00:00:00,000", "00:00:02,000", "A"⟩, ⟨"2", "00:00:00,500", "00:00:02,000", "B"⟩]
    [⟨"1", "00:00:00,100", "00:00:01,900", "T"⟩] 500
    ⟨"1", "00:00:00,000", "00:00:02,000", "A\n<font color=\"yellow\"><i>T</i></font>"⟩
    (by decide)

/-! ### C8 (amended direction) -/

lemma scanTrans_snd_bound (mS mE : Option Int) (θ : Int) (T : List SubRecord) :
    ∀ (l : List SubRecord) (i : Nat) (found : Bool) (best : Option Nat) (small : Option Int)
      (tIdx : Nat),
      l = T.drop i → tIdx ≤ i → tIdx ≤ T.length →
      tIdx ≤ (scanTrans mS mE θ l i found best small tIdx).2 ∧
      (scanTrans mS mE θ l i found best small tIdx).2 ≤ T.length ∧
      ∀ j, tIdx ≤ j → j < (scanTrans mS mE θ l i found best small tIdx).2 →
        ∃ u, T[j]? = some u ∧ ¬(u.startTime = "" ∨ u.endTime = "") ∧
          jlt (parseTimeToMs u.endTime) (jsubK mS (θ * 2)) = true := by
  intro l
  induction l with
  | nil =>
    intro i found best small tIdx hdrop hle hlen
    refine ⟨Nat.le_refl _, hlen, ?_⟩
    intro j h1 h2
    exact absurd (Nat.lt_of_le_of_lt h1 h2) (Nat.lt_irrefl _)
  | cons t rest ih =>
    intro i found best small tIdx hdrop hle hlen
    obtain ⟨hTi, hrest, hilen⟩ := drop_cons_eq hdrop.symm
    unfold scanTrans
    by_cases hv : t.startTime = "" ∨ t.endTime = ""
    · rw [if_pos hv]
      exact ih (i + 1) found best small tIdx hrest (Nat.le_succ_of_le hle) hlen
    · rw [if_neg hv]
      dsimp only
      by_cases hmatch : isPotentialMatch mS mE (parseTimeToMs t.startTime)
          (parseTimeToMs t.endTime) θ = true
      · rw [if_pos hmatch]
        by_cases hadv : jlt (parseTimeToMs t.endTime) (jsubK mS (θ * 2)) = true ∧ i = tIdx
        · rw [if_pos hadv]
          obtain ⟨ha, hb, hc⟩ := ih (i + 1) true _ _ (i + 1) hrest (Nat.le_refl _) hilen
          refine ⟨Nat.le_trans (Nat.le_succ_of_le hle) ha, hb, ?_⟩
          intro j h1 h2
          rcases Nat.lt_or_ge j (i + 1) with hj | hj
          · have : j = i := by omega
            subst this
            exact ⟨t, hTi, hv, hadv.1⟩
          · exact hc j hj h2
        · rw [if_neg hadv]
          exact ih (i + 1) true _ _ tIdx hrest (Nat.le_succ_of_le hle) hlen
      · rw [if_neg hmatch]
        by_cases hbrk1 : found = true ∧ jlt (jaddK mE θ) (parseTimeToMs t.startTime) = true
        · rw [if_pos hbrk1]
          refine ⟨Nat.le_refl _, hlen, ?_⟩
          intro j h1 h2
          exact absurd (Nat.lt_of_le_of_lt h1 h2) (Nat.lt_irrefl _)
        · rw [if_neg hbrk1]
          by_cases hbrk2 : found = false ∧ jlt (jaddK mE θ) (parseTimeToMs t.startTime) = true
          · rw [if_pos hbrk2]
            refine ⟨Nat.le_refl _, hlen, ?_⟩
            intro j h1 h2
            exact absurd (Nat.lt_of_le_of_lt h1 h2) (Nat.lt_irrefl _)
          · rw [if_neg hbrk2]
            by_cases hadv : jlt (parseTimeToMs t.endTime) (jsubK mS (θ * 2)) = true ∧ i = tIdx
            · rw [if_pos hadv]
              obtain ⟨ha, hb, hc⟩ := ih (i + 1) found best small (i + 1) hrest (Nat.le_refl _) hilen
              refine ⟨Nat.le_trans (Nat.le_succ_of_le hle) ha, hb, ?_⟩
              intro j h1 h2
              rcases Nat.lt_or_ge j (i + 1) with hj | hj
              · have : j = i := by omega
                subst this
                exact ⟨t, hTi, hv, hadv.1⟩
              · exact hc j hj h2
            · rw [if_neg hadv]
              exact ih (i + 1) found best small tIdx hrest (Nat.le_succ_of_le hle) hlen

/-- C8 amended: the cursor is advanced only past candidates that were exactly
at the cursor position and end more than `2 * thresholdMs` before the primary
record's start time — every index the cursor moves past during one primary
record's scan holds such a record — but it may advance several steps during a
single primary record's scan, even over strictly ordered, non-overlapping
translation records. -/
theorem c8_cursor_advance_condition (mS mE : Option Int) (θ : Int) (T : List SubRecord)
    (c : Nat) (hc : c ≤ T.length) :
    ∀ j, c ≤ j → j < (scanTrans mS mE θ (T.drop c) c false none none c).2 →
      ∃ u, T[j]? = some u ∧ ¬(u.startTime = "" ∨ u.endTime = "") ∧
        jlt (parseTimeToMs u.endTime) (jsubK mS (θ * 2)) = true :=
  (scanTrans_snd_bound mS mE θ T (T.drop c) c false none none c rfl (Nat.le_refl _) hc).2.2

/-- C8 amended witness: in the two-step advance example both skipped records
end more than 1000 ms before the primary start. -/
theorem c8_witness :
    ∃ u, ([(⟨"1", "00:00:00,000", "00:00:00,100", "t0"⟩ : SubRecord),
           ⟨"2", "00:00:00,200", "00:00:00,300", "t1"⟩])[1]? = some u ∧
      ¬(u.startTime = "" ∨ u.endTime = "") ∧
      jlt (parseTimeToMs u.endTime) (jsubK (parseTimeToMs "00:00:10,000") (500 * 2)) = true :=
  c8_cursor_advance_condition (parseTimeToMs "00:00:10,000") (parseTimeToMs "00:00:11,000") 500
    [⟨"1", "00:00:00,000", "00:00:00,100", "t0"⟩, ⟨"2", "00:00:00,200", "00:00:00,300", "t1"⟩]
    0 (by decide) 1 (by decide) (by decide)

/-! ### Window lemmas: records outside the scan window cannot match -/

lemma not_match_after {ms me ts te θ : Int} (hme : ms ≤ me) (hθ : 0 ≤ θ)
    (hst : ts ≤ te) (hfar : me + θ < ts) :
    isPotentialMatch (some ms) (some me) (some ts) (some te) θ = false := by
  have h1 : startsOverlap (some ms) (some me) (some ts) (some te) = false := by
    simp only [startsOverlap, jle, jlt, Bool.and_eq_false_iff, decide_eq_false_iff_not]
    right; omega
  have h2 : endsOverlap (some ms) (some me) (some ts) (some te) = false := by
    simp only [endsOverlap, jlt, jle, Bool.and_eq_false_iff, decide_eq_false_iff_not]
    right; omega
  have h3 : isWithin (some ms) (some me) (some ts) (some te) = false := by
    simp only [isWithin, jle, Bool.and_eq_false_iff, decide_eq_false_iff_not]
    right; omega
  have h4 : containsIv (some ms) (some me) (some ts) (some te) = false := by
    simp only [containsIv, jlt, Bool.and_eq_false_iff, decide_eq_false_iff_not]
    left; omega
  have h5 : jlt (jabsSub (some ms) (some ts)) (some θ) = false := by
    simp only [jabsSub, jlt, decide_eq_false_iff_not]
    rcases abs_cases (ms - ts) with ⟨hc1, hc2⟩ | ⟨hc1, hc2⟩ <;> omega
  simp [isPotentialMatch, h1, h2, h3, h4, h5]

lemma not_match_before {ms me ts te θ : Int} (hme : ms ≤ me) (hθ : 0 ≤ θ)
    (hst : ts ≤ te) (hearly : te < ms - θ * 2) :
    isPotentialMatch (some ms) (some me) (some ts) (some te) θ = false := by
  have h1 : startsOverlap (some ms) (some me) (some ts) (some te) = false := by
    simp only [startsOverlap, jle, jlt, Bool.and_eq_false_iff, decide_eq_false_iff_not]
    left; omega
  have h2 : endsOverlap (some ms) (some me) (some ts) (some te) = false := by
    simp only [endsOverlap, jlt, jle, Bool.and_eq_false_iff, decide_eq_false_iff_not]
    left; omega
  have h3 : isWithin (some ms) (some me) (some ts) (some te) = false := by
    simp only [isWithin, jle, Bool.and_eq_false_iff, decide_eq_false_iff_not]
    left; omega
  have h4 : containsIv (some ms) (some me) (some ts) (some te) = false := by
    simp only [containsIv, jlt, Bool.and_eq_false_iff, decide_eq_false_iff_not]
    right; omega
  have h5 : jlt (jabsSub (some ms) (some ts)) (some θ) = false := by
    simp only [jabsSub, jlt, decide_eq_false_iff_not]
    rcases abs_cases (ms - ts) with ⟨hc1, hc2⟩ | ⟨hc1, hc2⟩ <;> omega
  simp [isPotentialMatch, h1, h2, h3, h4, h5]

/-! ### specScan facts -/

lemma specScan_const (mS mE : Option Int) (θ : Int) :
    ∀ (l : List SubRecord) (i : Nat) (best : Option Nat) (small : Option Int),
      (∀ x ∈ l, ¬(x.startTime = "" ∨ x.endTime = "") →
        isPotentialMatch mS mE (parseTimeToMs x.startTime) (parseTimeToMs x.endTime) θ = false) →
      specScan mS mE θ l i best small = best := by
  intro l
  induction l with
  | nil => intro i best small h; rfl
  | cons t rest ih =>
    intro i best small h
    unfold specScan
    by_cases hv : t.startTime = "" ∨ t.endTime = ""
    · rw [if_pos hv]
      exact ih _ _ _ fun x hx => h x (List.mem_cons_of_mem _ hx)
    · rw [if_neg hv]
      dsimp only
      have hfalse := h t (List.mem_cons_self t rest) hv
      simp only [hfalse, Bool.false_eq_true, if_false]
      exact ih _ _ _ fun x hx => h x (List.mem_cons_of_mem _ hx)

lemma specScan_skip_head (mS mE : Option Int) (θ : Int) (t : SubRecord) (l : List SubRecord)
    (i : Nat) (best : Option Nat) (small : Option Int)
    (h : ¬(t.startTime = "" ∨ t.endTime = "") →
      isPotentialMatch mS mE (parseTimeToMs t.startTime) (parseTimeToMs t.endTime) θ = false) :
    specScan mS mE θ (t :: l) i best small = specScan mS mE θ l (i + 1) best small := by
  by_cases hv : t.startTime = "" ∨ t.endTime = ""
  · rw [specScan, if_pos hv]
  · rw [specScan, if_neg hv]
    dsimp only
    have hfalse := h hv
    simp only [hfalse, Bool.false_eq_true, if_false]

lemma specScan_drop (mS mE : Option Int) (θ : Int) (T : List SubRecord) :
    ∀ (c : Nat) (best : Option Nat) (small : Option Int), c ≤ T.length →
      (∀ j u, j < c → T[j]? = some u → ¬(u.startTime = "" ∨ u.endTime = "") →
        isPotentialMatch mS mE (parseTimeToMs u.startTime) (parseTimeToMs u.endTime) θ = false) →
      specScan mS mE θ T 0 best small = specScan mS mE θ (T.drop c) c best small := by
  intro c
  induction c with
  | zero => intro best small h1 h2; rfl
  | succ n ih =>
    intro best small h1 h2
    have hn : n < T.length := by omega
    rw [ih best small (by omega) fun j u hj => h2 j u (by omega)]
    rw [List.drop_eq_getElem_cons hn]
    exact specScan_skip_head mS mE θ _ _ _ _ _
      (h2 n (T[n]) (Nat.lt_succ_self n) (List.getElem?_eq_getElem hn))

/-! ### The optimised scan agrees with the specification scan -/

lemma scanTrans_fst_eq_specScan (ms me θ : Int) (hme : ms ≤ me) (hθ : 0 ≤ θ) :
    ∀ (l : List SubRecord) (i : Nat) (found : Bool) (best : Option Nat) (small : Option Int)
      (tIdx : Nat),
      (∀ t ∈ l, validSub t ∧ startMs t ≤ endMs t) →
      l.Pairwise (fun a b => startMs a ≤ startMs b) →
      (scanTrans (some ms) (some me) θ l i found best small tIdx).1 =
        specScan (some ms) (some me) θ l i best small := by
  intro l
  induction l with
  | nil => intro i found best small tIdx hv hs; rfl
  | cons t rest ih =>
    intro i found best small tIdx hv hs
    obtain ⟨hvt, htse⟩ := hv t (List.mem_cons_self t rest)
    have hvalid : ¬(t.startTime = "" ∨ t.endTime = "") := by
      obtain ⟨h1, h2, -, -⟩ := hvt
      tauto
    have hps := validSub_parse_start hvt
    have hpe := validSub_parse_end hvt
    have hrest_v : ∀ x ∈ rest, validSub x ∧ startMs x ≤ endMs x :=
      fun x hx => hv x (List.mem_cons_of_mem _ hx)
    obtain ⟨hhead, hrest_s⟩ := List.pairwise_cons.mp hs
    rw [scanTrans, specScan, if_neg hvalid, if_neg hvalid]
    dsimp only
    rw [hps, hpe]
    by_cases hmatch : isPotentialMatch (some ms) (some me) (some (startMs t))
        (some (endMs t)) θ = true
    · rw [if_pos hmatch, if_pos hmatch]
      by_cases hlt : ltInf (jabsSub (some ms) (some (startMs t))) small = true
      · rw [if_pos hlt, if_pos hlt, if_pos hlt]
        exact ih (i + 1) true (some i) _ _ hrest_v hrest_s
      · rw [if_neg hlt, if_neg hlt, if_neg hlt]
        exact ih (i + 1) true best small _ hrest_v hrest_s
    · rw [if_neg hmatch, if_neg hmatch]
      by_cases hfar : jlt (jaddK (some me) θ) (some (startMs t)) = true
      · have hfar' : me + θ < startMs t := by
          rw [jaddK_some] at hfar
          exact jlt_some_some.mp hfar
        have hnone : specScan (some ms) (some me) θ rest (i + 1) best small = best := by
          apply specScan_const
          intro x hx hxv
          obtain ⟨hvx, hx_te⟩ := hrest_v x hx
          rw [validSub_parse_start hvx, validSub_parse_end hvx]
          exact not_match_after hme hθ hx_te (by have := hhead x hx; omega)
        rw [hnone]
        cases found with
        | true => rw [if_pos ⟨rfl, hfar⟩]
        | false => rw [if_neg (by simp), if_pos ⟨rfl, hfar⟩]
      · have hnb1 : ¬(found = true ∧ jlt (jaddK (some me) θ) (some (startMs t)) = true) :=
          fun hc => hfar hc.2
        have hnb2 : ¬(found = false ∧ jlt (jaddK (some me) θ) (some (startMs t)) = true) :=
          fun hc => hfar hc.2
        rw [if_neg hnb1, if_neg hnb2]
        exact ih (i + 1) found best small _ hrest_v hrest_s

lemma ltInf_some_some {a b : Int} : ltInf (some a) (some b) = true ↔ a < b := by
  simp [ltInf]

lemma specScan_argmin (ms : Int) (mE : Option Int) (θ : Int) (T : List SubRecord)
    (hT : ∀ t ∈ T, validSub t) :
    ∀ (l : List SubRecord) (i : Nat) (best : Option Nat) (small : Option Int),
      l = T.drop i →
      (best = none → small = none ∧ ∀ j, j < i → ¬MatchesIdx T (some ms) mE θ j) →
      (∀ b, best = some b → b < i ∧ MatchesIdx T (some ms) mE θ b ∧
        small = some (diffAt T ms b) ∧
        (∀ j, j < i → MatchesIdx T (some ms) mE θ j → diffAt T ms b ≤ diffAt T ms j) ∧
        (∀ j, j < b → MatchesIdx T (some ms) mE θ j → diffAt T ms b < diffAt T ms j)) →
      (specScan (some ms) mE θ l i best small = none →
        ∀ j, j < T.length → ¬MatchesIdx T (some ms) mE θ j) ∧
      (∀ b, specScan (some ms) mE θ l i best small = some b →
        MatchesIdx T (some ms) mE θ b ∧
        (∀ j, j < T.length → MatchesIdx T (some ms) mE θ j → diffAt T ms b ≤ diffAt T ms j) ∧
        (∀ j, j < b → MatchesIdx T (some ms) mE θ j → diffAt T ms b < diffAt T ms j)) := by
  intro l
  induction l with
  | nil =>
    intro i best small hdrop hnone hsome
    have hlen : T.length ≤ i := List.drop_eq_nil_iff.mp hdrop.symm
    constructor
    · intro hres j hj
      rw [specScan] at hres
      exact (hnone hres).2 j (by omega)
    · intro b hres
      rw [specScan] at hres
      obtain ⟨hbi, hM, hsm, hmin, hstrict⟩ := hsome b hres
      exact ⟨hM, fun j hj => hmin j (by omega), hstrict⟩
  | cons t rest ih =>
    intro i best small hdrop hnone hsome
    obtain ⟨hTi, hrest, hilen⟩ := drop_cons_eq hdrop.symm
    have hvt : validSub t := hT t (List.getElem?_mem hTi)
    have hvalid : ¬(t.startTime = "" ∨ t.endTime = "") := by
      obtain ⟨h1, h2, -, -⟩ := hvt
      tauto
    have hps := validSub_parse_start hvt
    have hgetD : T.getD i default = t := by simp [List.getD_eq_getElem?_getD, hTi]
    have hdiff_i : jabsSub (some ms) (parseTimeToMs t.startTime) = some (diffAt T ms i) := by
      rw [hps, jabsSub_some, diffAt, hgetD]
    rw [specScan, if_neg hvalid]
    dsimp only
    by_cases hmatch : isPotentialMatch (some ms) mE (parseTimeToMs t.startTime)
        (parseTimeToMs t.endTime) θ = true
    · rw [if_pos hmatch]
      have hMi : MatchesIdx T (some ms) mE θ i := ⟨t, hTi, hvalid, hmatch⟩
      by_cases hlt : ltInf (jabsSub (some ms) (parseTimeToMs t.startTime)) small = true
      · rw [if_pos hlt]
        refine ih (i + 1) (some i) _ hrest (by intro hc; cases hc) ?_
        intro b hb
        injection hb with hb
        subst hb
        refine ⟨Nat.lt_succ_self i, hMi, hdiff_i, ?_, ?_⟩
        · intro j hj hMj
          rcases Nat.lt_succ_iff_lt_or_eq.mp hj with hj' | hj'
          · cases hbest : best with
            | none => exact absurd hMj ((hnone hbest).2 j hj')
            | some b0 =>
              obtain ⟨hb0i, hMb0, hsm, hmin, hstrict⟩ := hsome b0 hbest
              rw [hdiff_i, hsm] at hlt
              have := ltInf_some_some.mp hlt
              have := hmin j hj' hMj
              omega
          · subst hj'
            exact Int.le_refl _
        · intro j hj hMj
          cases hbest : best with
          | none => exact absurd hMj ((hnone hbest).2 j hj)
          | some b0 =>
            obtain ⟨hb0i, hMb0, hsm, hmin, hstrict⟩ := hsome b0 hbest
            rw [hdiff_i, hsm] at hlt
            have := ltInf_some_some.mp hlt
            have := hmin j (by omega) hMj
            omega
      · rw [if_neg hlt]
        cases hbest : best with
        | none =>
          obtain ⟨hsm, -⟩ := hnone hbest
          rw [hdiff_i, hsm] at hlt
          exact absurd rfl hlt
        | some b0 =>
          obtain ⟨hb0i, hMb0, hsm, hmin, hstrict⟩ := hsome b0 hbest
          have hge : diffAt T ms b0 ≤ diffAt T ms i := by
            rw [hdiff_i, hsm] at hlt
            have := (not_iff_not.mpr (ltInf_some_some (a := diffAt T ms i)
              (b := diffAt T ms b0))).mp (by simpa using hlt)
            omega
          subst hbest
          refine ih (i + 1) (some b0) small hrest (by intro hc; cases hc) ?_
          intro b hb
          injection hb with hb
          subst hb
          refine ⟨by omega, hMb0, hsm, ?_, hstrict⟩
          intro j hj hMj
          rcases Nat.lt_succ_iff_lt_or_eq.mp hj with hj' | hj'
          · exact hmin j hj' hMj
          · subst hj'
            exact hge
    · rw [if_neg hmatch]
      have hnMi : ¬MatchesIdx T (some ms) mE θ i := by
        rintro ⟨u, hu, hunv, hum⟩
        rw [hTi] at hu
        injection hu with hu
        subst hu
        exact hmatch hum
      refine ih (i + 1) best small hrest ?_ ?_
      · intro hc
        obtain ⟨hsm, hj⟩ := hnone hc
        refine ⟨hsm, fun j hj' => ?_⟩
        rcases Nat.lt_succ_iff_lt_or_eq.mp hj' with h | h
        · exact hj j h
        · subst h
          exact hnMi
      · intro b hb
        obtain ⟨hbi, hM, hsm, hmin, hstrict⟩ := hsome b hb
        refine ⟨by omega, hM, hsm, ?_, hstrict⟩
        intro j hj hMj
        rcases Nat.lt_succ_iff_lt_or_eq.mp hj with h | h
        · exact hmin j h hMj
        · subst h
          exact absurd hMj hnMi

/-! ### Master refinement: mergeRun computes the specification merge -/

lemma mergeRun_eq_specMerge (transSubs : List SubRecord) (θ : Int) (hθ : 0 ≤ θ)
    (hT : ∀ t ∈ transSubs, validSub t ∧ startMs t ≤ endMs t)
    (hTs : transSubs.Pairwise fun a b => startMs a ≤ startMs b) :
    ∀ (mains : List SubRecord) (c : Nat),
      (∀ m ∈ mains, validSub m ∧ startMs m ≤ endMs m) →
      mains.Pairwise (fun a b => startMs a ≤ startMs b) →
      c ≤ transSubs.length →
      (∀ j u, j < c → transSubs[j]? = some u → ∀ m ∈ mains, endMs u < startMs m - θ * 2) →
      mergeRun transSubs θ mains c =
        mains.map fun m => (specMerge m transSubs θ, specBestMatch m transSubs θ) := by
  intro mains
  induction mains with
  | nil => intro c h1 h2 h3 h4; rfl
  | cons m rest ihm =>
    intro c hm hms hclen hc
    obtain ⟨hvm, hmse⟩ := hm m (List.mem_cons_self m rest)
    have hvalid : ¬(m.startTime = "" ∨ m.endTime = "") := by
      obtain ⟨h1, h2, -, -⟩ := hvm
      tauto
    have hps := validSub_parse_start hvm
    have hpe := validSub_parse_end hvm
    obtain ⟨hhead, hrest_s⟩ := List.pairwise_cons.mp hms
    have hrest_m : ∀ x ∈ rest, validSub x ∧ startMs x ≤ endMs x :=
      fun x hx => hm x (List.mem_cons_of_mem _ hx)
    have hskipmatch : ∀ j u, j < c → transSubs[j]? = some u →
        ¬(u.startTime = "" ∨ u.endTime = "") →
        isPotentialMatch (some (startMs m)) (some (endMs m)) (parseTimeToMs u.startTime)
          (parseTimeToMs u.endTime) θ = false := by
      intro j u hj hu hunv
      obtain ⟨hvu, hue⟩ := hT u (List.getElem?_mem hu)
      rw [validSub_parse_start hvu, validSub_parse_end hvu]
      exact not_match_before hmse hθ hue (hc j u hj hu m (List.mem_cons_self m rest))
    have hscan1 : (scanTrans (some (startMs m)) (some (endMs m)) θ (transSubs.drop c) c
        false none none c).1 = specBestMatch m transSubs θ := by
      rw [scanTrans_fst_eq_specScan (startMs m) (endMs m) θ hmse hθ (transSubs.drop c) c
        false none none c
        (fun x hx => hT x ((List.drop_sublist c transSubs).subset hx))
        (hTs.sublist (List.drop_sublist c transSubs))]
      rw [specBestMatch, hps, hpe]
      exact (specScan_drop (some (startMs m)) (some (endMs m)) θ transSubs c none none
        hclen hskipmatch).symm
    obtain ⟨hcle, hclen', hskip⟩ := scanTrans_snd_bound (some (startMs m)) (some (endMs m)) θ
      transSubs (transSubs.drop c) c false none none c rfl (Nat.le_refl _) hclen
    have hc' : ∀ j u, j < (scanTrans (some (startMs m)) (some (endMs m)) θ
        (transSubs.drop c) c false none none c).2 → transSubs[j]? = some u →
        ∀ m' ∈ rest, endMs u < startMs m' - θ * 2 := by
      intro j u hj hu m' hm'
      rcases Nat.lt_or_ge j c with hjc | hjc
      · exact hc j u hjc hu m' (List.mem_cons_of_mem _ hm')
      · obtain ⟨u', hu', hu'v, hu'lt⟩ := hskip j hjc hj
        rw [hu] at hu'
        injection hu' with hu'
        subst hu'
        obtain ⟨hvu, -⟩ := hT u (List.getElem?_mem hu)
        rw [validSub_parse_end hvu, jsubK_some] at hu'lt
        have h1 := jlt_some_some.mp hu'lt
        have h2 := hhead m' hm'
        omega
    rw [mergeRun, if_neg hvalid]
    dsimp only
    rw [hps, hpe, hscan1]
    rw [List.map_cons]
    cases hbm : specBestMatch m transSubs θ with
    | some j =>
      rw [specMerge, hbm]
      dsimp only
      congr 1
      exact ihm _ hrest_m hrest_s hclen' hc'
    | none =>
      rw [specMerge, hbm]
      dsimp only
      congr 1
      exact ihm _ hrest_m hrest_s hclen' hc'

lemma mergeSubtitles_eq_spec (mainSubs transSubs : List SubRecord) (θ : Int) (hθ : 0 ≤ θ)
    (hmain : ∀ m ∈ mainSubs, validSub m ∧ startMs m ≤ endMs m)
    (hms : mainSubs.Pairwise fun a b => startMs a ≤ startMs b)
    (hT : ∀ t ∈ transSubs, validSub t ∧ startMs t ≤ endMs t)
    (hTs : transSubs.Pairwise fun a b => startMs a ≤ startMs b) :
    mergeSubtitles mainSubs transSubs θ = mainSubs.map fun m => specMerge m transSubs θ := by
  unfold mergeSubtitles
  rw [mergeRun_eq_specMerge transSubs θ hθ hT hTs mainSubs 0 hmain hms (Nat.zero_le _)
    (fun j u hj => absurd hj (Nat.not_lt_zero j)), List.map_map]
  rfl

lemma mergeChoices_eq_spec (mainSubs transSubs : List SubRecord) (θ : Int) (hθ : 0 ≤ θ)
    (hmain : ∀ m ∈ mainSubs, validSub m ∧ startMs m ≤ endMs m)
    (hms : mainSubs.Pairwise fun a b => startMs a ≤ startMs b)
    (hT : ∀ t ∈ transSubs, validSub t ∧ startMs t ≤ endMs t)
    (hTs : transSubs.Pairwise fun a b => startMs a ≤ startMs b) :
    mergeChoices mainSubs transSubs θ = mainSubs.map fun m => specBestMatch m transSubs θ := by
  unfold mergeChoices
  rw [mergeRun_eq_specMerge transSubs θ hθ hT hTs mainSubs 0 hmain hms (Nat.zero_le _)
    (fun j u hj => absurd hj (Nat.not_lt_zero j)), List.map_map]
  rfl

lemma specBestMatch_argmin (m : SubRecord) (T : List SubRecord) (θ : Int)
    (hvm : validSub m) (hT : ∀ t ∈ T, validSub t) :
    (specBestMatch m T θ = none → ∀ j, j < T.length →
      ¬MatchesIdx T (parseTimeToMs m.startTime) (parseTimeToMs m.endTime) θ j) ∧
    (∀ b, specBestMatch m T θ = some b →
      MatchesIdx T (parseTimeToMs m.startTime) (parseTimeToMs m.endTime) θ b ∧
      (∀ j, j < T.length → MatchesIdx T (parseTimeToMs m.startTime)
        (parseTimeToMs m.endTime) θ j → diffAt T (startMs m) b ≤ diffAt T (startMs m) j) ∧
      (∀ j, j < b → MatchesIdx T (parseTimeToMs m.startTime)
        (parseTimeToMs m.endTime) θ j → diffAt T (startMs m) b < diffAt T (startMs m) j)) := by
  have hps := validSub_parse_start hvm
  have h := specScan_argmin (startMs m) (parseTimeToMs m.endTime) θ T hT T 0 none none
    (List.drop_zero T).symm (fun _ => ⟨rfl, fun j hj => absurd hj (Nat.not_lt_zero j)⟩)
    (fun b hb => by cases hb)
  rw [specBestMatch, hps]
  exact h

/-! ### C2 -/

/-- C2: over time-ordered, well-formed input sequences (and a non-negative
threshold), the translation record chosen for a primary record satisfies at
least one of the five conditions, and among all translation records satisfying
one of them it has the smallest absolute start-time difference from the
primary record, ties broken in favour of the lowest translation index. -/
theorem c2_best_match_minimises_diff (mainSubs transSubs : List SubRecord) (θ : Int)
    (hθ : 0 ≤ θ)
    (hmain : ∀ m ∈ mainSubs, validSub m ∧ startMs m ≤ endMs m)
    (hmainSorted : mainSubs.Pairwise fun a b => startMs a ≤ startMs b)
    (htrans : ∀ t ∈ transSubs, validSub t ∧ startMs t ≤ endMs t)
    (htransSorted : transSubs.Pairwise fun a b => startMs a ≤ startMs b) :
    ∀ (k : Nat) (m : SubRecord) (j : Nat), mainSubs[k]? = some m →
      (mergeChoices mainSubs transSubs θ)[k]? = some (some j) →
      ∃ u, transSubs[j]? = some u ∧
        isPotentialMatch (parseTimeToMs m.startTime) (parseTimeToMs m.endTime)
          (parseTimeToMs u.startTime) (parseTimeToMs u.endTime) θ = true ∧
        ∀ (j' : Nat) (u' : SubRecord), transSubs[j']? = some u' →
          isPotentialMatch (parseTimeToMs m.startTime) (parseTimeToMs m.endTime)
            (parseTimeToMs u'.startTime) (parseTimeToMs u'.endTime) θ = true →
          |startMs m - startMs u| ≤ |startMs m - startMs u'| ∧
          (j' < j → |startMs m - startMs u| < |startMs m - startMs u'|) := by
  intro k m j hk hchoice
  have hvm := (hmain m (List.getElem?_mem hk)).1
  rw [mergeChoices_eq_spec mainSubs transSubs θ hθ hmain hmainSorted htrans htransSorted,
    List.getElem?_map, hk] at hchoice
  injection hchoice with hchoice
  have hTvalid : ∀ t ∈ transSubs, validSub t := fun t ht => (htrans t ht).1
  obtain ⟨hMb, hmin, hstrict⟩ := (specBestMatch_argmin m transSubs θ hvm hTvalid).2 j hchoice
  obtain ⟨u, hu, hunv, humatch⟩ := hMb
  have hgetD : transSubs.getD j default = u := by
    simp [List.getD_eq_getElem?_getD, hu]
  refine ⟨u, hu, humatch, ?_⟩
  intro j' u' hu' humatch'
  have hj'len : j' < transSubs.length := (List.getElem?_eq_some_iff.mp hu').1
  have hM' : MatchesIdx transSubs (parseTimeToMs m.startTime) (parseTimeToMs m.endTime) θ j' := by
    refine ⟨u', hu', ?_, humatch'⟩
    obtain ⟨h1, h2, -, -⟩ := (htrans u' (List.getElem?_mem hu')).1
    tauto
  have hgetD' : transSubs.getD j' default = u' := by
    simp [List.getD_eq_getElem?_getD, hu']
  constructor
  · have := hmin j' hj'len hM'
    rwa [diffAt, diffAt, hgetD, hgetD'] at this
  · intro hlt
    have := hstrict j' hlt hM'
    rwa [diffAt, diffAt, hgetD, hgetD'] at this

/-- C2 witness: for the single primary record 0–2000 ms against translations
at 100 ms and 300 ms, the chosen translation index 0 (difference 100) is a
potential match and minimises the start-time difference. -/
theorem c2_witness :
    ∃ u, ([(⟨"1", "00:00:00,100", "00:00:01,900", "T0"⟩ : SubRecord),
           ⟨"2", "00:00:00,300", "00:00:01,950", "T1"⟩])[0]? = some u ∧
      isPotentialMatch (parseTimeToMs "00:00:00,000") (parseTimeToMs "00:00:02,000")
        (parseTimeToMs u.startTime) (parseTimeToMs u.endTime) 500 = true ∧
      ∀ j' u', ([(⟨"1", "00:00:00,100", "00:00:01,900", "T0"⟩ : SubRecord),
           ⟨"2", "00:00:00,300", "00:00:01,950", "T1"⟩])[j']? = some u' →
        isPotentialMatch (parseTimeToMs "00:00:00,000") (parseTimeToMs "00:00:02,000")
          (parseTimeToMs u'.startTime) (parseTimeToMs u'.endTime) 500 = true →
        |startMs ⟨"1", "00:00:00,000", "00:00:02,000", "A"⟩ - startMs u| ≤
          |startMs ⟨"1", "00:00:00,000", "00:00:02,000", "A"⟩ - startMs u'| ∧
        (j' < 0 → |startMs ⟨"1", "00:00:00,000", "00:00:02,000", "A"⟩ - startMs u| <
          |startMs ⟨"1", "00:00:00,000", "00:00:02,000", "A"⟩ - startMs u'|) :=
  c2_best_match_minimises_diff
    [⟨"1", "00:00:00,000", "00:00:02,000", "A"⟩]
    [⟨"1", "00:00:00,100", "00:00:01,900", "T0"⟩, ⟨"2", "00:00:00,300", "00:00:01,950", "T1"⟩]
    500 (by decide) (by decide) (by decide) (by decide) (by decide)
    0 ⟨"1", "00:00:00,000", "00:00:02,000", "A"⟩ 0 (by decide) (by decide)

/-! ### C6 -/

/-- C6: over time-ordered, well-formed input sequences (and a non-negative
threshold), a primary record with a translation match produces the flattened
primary text, a newline, and the flattened translation text wrapped in
`<font color="yellow"><i>` … `</i></font>`; a primary record with no match
produces the flattened primary text alone, with no markup. -/
theorem c6_merged_text_format (mainSubs transSubs : List SubRecord) (θ : Int)
    (hθ : 0 ≤ θ)
    (hmain : ∀ m ∈ mainSubs, validSub m ∧ startMs m ≤ endMs m)
    (hmainSorted : mainSubs.Pairwise fun a b => startMs a ≤ startMs b)
    (htrans : ∀ t ∈ transSubs, validSub t ∧ startMs t ≤ endMs t)
    (htransSorted : transSubs.Pairwise fun a b => startMs a ≤ startMs b) :
    ∀ (k : Nat) (m : SubRecord), mainSubs[k]? = some m →
      (specBestMatch m transSubs θ = none ∧
        (mergeSubtitles mainSubs transSubs θ)[k]? =
          some { m with text := flattenStr m.text }) ∨
      (∃ (j : Nat) (u : SubRecord), specBestMatch m transSubs θ = some j ∧
        transSubs[j]? = some u ∧
        (mergeSubtitles mainSubs transSubs θ)[k]? =
          some { m with text := (flattenStr m.text ++ "\n<font color=\"yellow\"><i>" ++
            flattenStr u.text ++ "</i></font>") }) := by
  intro k m hk
  have hvm := (hmain m (List.getElem?_mem hk)).1
  have hTvalid : ∀ t ∈ transSubs, validSub t := fun t ht => (htrans t ht).1
  have houtput : (mergeSubtitles mainSubs transSubs θ)[k]? =
      some (specMerge m transSubs θ) := by
    rw [mergeSubtitles_eq_spec mainSubs transSubs θ hθ hmain hmainSorted htrans htransSorted,
      List.getElem?_map, hk]
    rfl
  cases hbm : specBestMatch m transSubs θ with
  | none =>
    left
    refine ⟨rfl, ?_⟩
    rw [houtput, specMerge, hbm]
  | some j =>
    obtain ⟨hMb, -, -⟩ := (specBestMatch_argmin m transSubs θ hvm hTvalid).2 j hbm
    obtain ⟨u, hu, -, -⟩ := hMb
    have hgetD : transSubs.getD j default = u := by
      simp [List.getD_eq_getElem?_getD, hu]
    right
    refine ⟨j, u, rfl, hu, ?_⟩
    rw [houtput, specMerge, hbm]
    dsimp only
    rw [hgetD]
    rfl

/-- C6 witness (Scenario A): primary "Hello" 0–2000 ms and translation
"Bonjour" 100–1900 ms produce the merged text
`Hello` + newline + `<font color="yellow"><i>Bonjour</i></font>`. -/
theorem c6_witness :
    (specBestMatch ⟨"1", "00:00:00,000", "00:00:02,000", "Hello"⟩
        [⟨"1", "00:00:00,100", "00:00:01,900", "Bonjour"⟩] 500 = none ∧
      (mergeSubtitles [⟨"1", "00:00:00,000", "00:00:02,000", "Hello"⟩]
          [⟨"1", "00:00:00,100", "00:00:01,900", "Bonjour"⟩] 500)[0]? =
        some { (⟨"1", "00:00:00,000", "00:00:02,000", "Hello"⟩ : SubRecord) with
            text := flattenStr "Hello" }) ∨
    (∃ (j : Nat) (u : SubRecord),
      specBestMatch ⟨"1", "00:00:00,000", "00:00:02,000", "Hello"⟩
        [⟨"1", "00:00:00,100", "00:00:01,900", "Bonjour"⟩] 500 = some j ∧
      ([(⟨"1", "00:00:00,100", "00:00:01,900", "Bonjour"⟩ : SubRecord)])[j]? = some u ∧
      (mergeSubtitles [⟨"1", "00:00:00,000", "00:00:02,000", "Hello"⟩]
          [⟨"1", "00:00:00,100", "00:00:01,900", "Bonjour"⟩] 500)[0]? =
        some { (⟨"1", "00:00:00,000", "00:00:02,000", "Hello"⟩ : SubRecord) with
            text := (flattenStr "Hello" ++ "\n<font color=\"yellow\"><i>" ++
              flattenStr u.text ++ "</i></font>") }) :=
  c6_merged_text_format [⟨"1", "00:00:00,000", "00:00:02,000", "Hello"⟩]
    [⟨"1", "00:00:00,100", "00:00:01,900", "Bonjour"⟩] 500
    (by decide) (by decide) (by decide) (by decide) (by decide)
    0 ⟨"1", "00:00:00,000", "00:00:02,000", "Hello"⟩ (by decide)
